import Mathlib

/-!
Verification of the falling-block puzzle core in `src/tower/main.go`.

The Go game state (`Game`) is embedded as a Lean structure; the board
`[boardH][boardW]int` becomes a `List (List Nat)` of `boardH` rows of
`boardW` cells; machine integers that can go negative (piece coordinates)
are `Int`, counters are `Nat`.  `rand.Rand` is modelled by an injected
stream of shuffle results (`Nat → List Nat`), one per bag refill, as the
spec prescribes an explicit, injectable random source.  Ebitengine input
polling is modelled by a record of the sampled key/touch booleans, and the
platform test `runtime.GOOS == ios/android` by a `mobile` flag; the screen
geometry of the touch buttons (hit-testing) is resolved into the
per-button booleans, which the spec places outside the core.
-/

namespace Tower

def boardW : Nat := 10

def boardH : Nat := 20

/-- A cell position, `point` in the Go source. -/
structure Point where
  x : Int
  y : Int
deriving DecidableEq

/-- `pieceShapes[kind][rot]`: cell offsets in a 4x4 bounding box (Go `pieceShapes`). -/
def pieceShapes : List (List (List Point)) :=
  [ -- I
    [ [⟨0, 1⟩, ⟨1, 1⟩, ⟨2, 1⟩, ⟨3, 1⟩],
      [⟨2, 0⟩, ⟨2, 1⟩, ⟨2, 2⟩, ⟨2, 3⟩],
      [⟨0, 2⟩, ⟨1, 2⟩, ⟨2, 2⟩, ⟨3, 2⟩],
      [⟨1, 0⟩, ⟨1, 1⟩, ⟨1, 2⟩, ⟨1, 3⟩] ],
    -- O
    [ [⟨1, 1⟩, ⟨2, 1⟩, ⟨1, 2⟩, ⟨2, 2⟩],
      [⟨1, 1⟩, ⟨2, 1⟩, ⟨1, 2⟩, ⟨2, 2⟩],
      [⟨1, 1⟩, ⟨2, 1⟩, ⟨1, 2⟩, ⟨2, 2⟩],
      [⟨1, 1⟩, ⟨2, 1⟩, ⟨1, 2⟩, ⟨2, 2⟩] ],
    -- T
    [ [⟨1, 0⟩, ⟨0, 1⟩, ⟨1, 1⟩, ⟨2, 1⟩],
      [⟨1, 0⟩, ⟨1, 1⟩, ⟨2, 1⟩, ⟨1, 2⟩],
      [⟨0, 1⟩, ⟨1, 1⟩, ⟨2, 1⟩, ⟨1, 2⟩],
      [⟨1, 0⟩, ⟨0, 1⟩, ⟨1, 1⟩, ⟨1, 2⟩] ],
    -- S
    [ [⟨1, 0⟩, ⟨2, 0⟩, ⟨0, 1⟩, ⟨1, 1⟩],
      [⟨1, 0⟩, ⟨1, 1⟩, ⟨2, 1⟩, ⟨2, 2⟩],
      [⟨1, 1⟩, ⟨2, 1⟩, ⟨0, 2⟩, ⟨1, 2⟩],
      [⟨0, 0⟩, ⟨0, 1⟩, ⟨1, 1⟩, ⟨1, 2⟩] ],
    -- Z
    [ [⟨0, 0⟩, ⟨1, 0⟩, ⟨1, 1⟩, ⟨2, 1⟩],
      [⟨2, 0⟩, ⟨1, 1⟩, ⟨2, 1⟩, ⟨1, 2⟩],
      [⟨0, 1⟩, ⟨1, 1⟩, ⟨1, 2⟩, ⟨2, 2⟩],
      [⟨1, 0⟩, ⟨0, 1⟩, ⟨1, 1⟩, ⟨0, 2⟩] ],
    -- J
    [ [⟨0, 0⟩, ⟨0, 1⟩, ⟨1, 1⟩, ⟨2, 1⟩],
      [⟨1, 0⟩, ⟨2, 0⟩, ⟨1, 1⟩, ⟨1, 2⟩],
      [⟨0, 1⟩, ⟨1, 1⟩, ⟨2, 1⟩, ⟨2, 2⟩],
      [⟨1, 0⟩, ⟨1, 1⟩, ⟨0, 2⟩, ⟨1, 2⟩] ],
    -- L
    [ [⟨2, 0⟩, ⟨0, 1⟩, ⟨1, 1⟩, ⟨2, 1⟩],
      [⟨1, 0⟩, ⟨1, 1⟩, ⟨1, 2⟩, ⟨2, 2⟩],
      [⟨0, 1⟩, ⟨1, 1⟩, ⟨2, 1⟩, ⟨0, 2⟩],
      [⟨0, 0⟩, ⟨1, 0⟩, ⟨1, 1⟩, ⟨1, 2⟩] ] ]

/-- Shape lookup `pieceShapes[kind][rot]`. -/
def shapeOf (kind rot : Nat) : List Point :=
  (pieceShapes.getD kind []).getD rot []

/-- The Go `activePiece` struct: kind, rotation index and anchor. -/
structure ActivePiece where
  kind : Nat
  rot : Nat
  x : Int
  y : Int
deriving DecidableEq

/-- The board `[boardH][boardW]int`: `boardH` rows of `boardW` cells,
`0` empty, `1..7` locked piece kinds. -/
abbrev Board : Type := List (List Nat)

/-- Read `board[y][x]` (only consulted at in-range indices by the code). -/
def getCell (b : Board) (x y : Int) : Nat :=
  (b.getD y.toNat []).getD x.toNat 0

/-- Write `board[y][x] = v` (the code only writes at in-range indices). -/
def setCell (b : Board) (x y : Int) (v : Nat) : Board :=
  b.set y.toNat ((b.getD y.toNat []).set x.toNat v)

/-- Go `(g *Game) pieceCells`: the four absolute cells of a piece. -/
def pieceCells (ap : ActivePiece) : List Point :=
  (shapeOf ap.kind ap.rot).map (fun p => ⟨ap.x + p.x, ap.y + p.y⟩)

/-- Go `(g *Game) collides`: a cell out of x-range, below the floor, or
overlapping a nonzero board cell at `y ≥ 0` makes the placement invalid. -/
def collides (b : Board) (ap : ActivePiece) : Bool :=
  (pieceCells ap).any (fun p =>
    (decide (p.x < 0) || decide ((boardW : Int) ≤ p.x) || decide ((boardH : Int) ≤ p.y)) ||
    (decide (0 ≤ p.y) && decide (getCell b p.x p.y ≠ 0)))

/-- The all-empty board, the zero value of the Go array. -/
def emptyBoard : Board :=
  List.replicate boardH (List.replicate boardW 0)

/-- A board is well formed when it has exactly `boardH` rows of `boardW` cells. -/
def WFBoard (b : Board) : Prop :=
  b.length = boardH ∧ ∀ row ∈ b, row.length = boardW

/-- The write loop of Go `lockPiece` over the cell list: on the first cell
with `y < 0` it sets the overflow flag (`gameOver`) and stops, leaving the
remaining cells unwritten; otherwise it writes `kind+1` and continues.
Returns the updated board and the overflow flag. -/
def placeCells (b : Board) (k : Nat) : List Point → Board × Bool
  | [] => (b, false)
  | p :: ps =>
    if p.y < 0 then (b, true)
    else placeCells (setCell b p.x p.y (k + 1)) k ps

/-- The board-and-overflow part of Go `lockPiece` (the spec's `Board.place`). -/
def lockPlace (b : Board) (ap : ActivePiece) : Board × Bool :=
  placeCells b ap.kind (pieceCells ap)

/-- Row fullness test of Go `clearLines`: all `boardW` cells nonzero. -/
def rowFull (row : List Nat) : Bool :=
  (List.range boardW).all (fun x => row.getD x 0 ≠ 0)

/-- An all-empty row, the Go zero value `[boardW]int{}`. -/
def emptyRow : List Nat := List.replicate boardW 0

/-- The row-compaction part of Go `clearLines` (the spec's
`Board.clearFullRows`): keep the non-full rows in order, count the full
ones, and pad with empty rows on top until the board has `boardH` rows
again.  Returns the new board and the cleared count. -/
def clearRows (b : Board) : Board × Nat :=
  let newRows := b.filter (fun row => !(rowFull row))
  let cleared := b.countP (fun row => rowFull row)
  (List.replicate (boardH - newRows.length) emptyRow ++ newRows, cleared)

/-- The scoring table of Go `clearLines`. -/
def scoreTable : List Nat := [0, 40, 100, 300, 1200]

/-- The bag state of the randomizer: the remaining bag and the number of
refills performed so far (the index into the injected shuffle stream). -/
structure BagState where
  bag : List Nat
  refills : Nat
deriving DecidableEq

/-- Go `popBag`: refill with a shuffled permutation of `{0..6}` when the
bag is empty (`rng.Shuffle` modelled by the injected stream `sh`), then
pop and return the front element. -/
def popBag (sh : Nat → List Nat) (s : BagState) : Nat × BagState :=
  if s.bag.isEmpty then
    let nb := sh s.refills
    (nb.headD 0, ⟨nb.tail, s.refills + 1⟩)
  else
    (s.bag.headD 0, ⟨s.bag.tail, s.refills⟩)

/-- The list of the first `n` kinds drawn from bag state `s`, with the
final bag state. -/
def drawList (sh : Nat → List Nat) (s : BagState) : Nat → List Nat × BagState
  | 0 => ([], s)
  | n + 1 =>
    let (v, s1) := popBag sh s
    let (vs, s2) := drawList sh s1 n
    (v :: vs, s2)

/-- The Go `Game` struct (render-only fields omitted; `rng` replaced by
the refill counter indexing the injected shuffle stream). -/
structure Game where
  board : Board
  cur : ActivePiece
  nextKind : Nat
  bag : List Nat
  refills : Nat
  score : Nat
  lines : Nat
  level : Nat
  dropFrameCounter : Nat
  gameOver : Bool
deriving DecidableEq

/-- Go `spawn`: place the reserved kind at the fixed anchor, draw a new
next kind, and set `gameOver` when the fresh piece already collides. -/
def spawn (sh : Nat → List Nat) (g : Game) : Game :=
  let cur : ActivePiece := ⟨g.nextKind, 0, 3, 0⟩
  let (nk, bs) := popBag sh ⟨g.bag, g.refills⟩
  let g1 := { g with cur := cur, nextKind := nk, bag := bs.bag, refills := bs.refills }
  if collides g1.board cur then { g1 with gameOver := true } else g1

/-- Counter update of Go `clearLines` (lines 209-216): on a positive
cleared count, lines and level are recomputed first and the score bonus
uses the updated level. -/
def applyClear (g : Game) (cleared : Nat) : Game :=
  if cleared > 0 then
    let lines := g.lines + cleared
    let level := lines / 10
    let score :=
      if cleared ≤ 4 then g.score + scoreTable.getD cleared 0 * (level + 1) else g.score
    { g with lines := lines, level := level, score := score }
  else g

/-- Go `clearLines` on the whole game: compact the rows, then update the
counters from the cleared count. -/
def clearLines (g : Game) : Game :=
  let (b1, cleared) := clearRows g.board
  applyClear { g with board := b1 } cleared

/-- Go `lockPiece`: write the piece cells (stopping with `gameOver` on a
cell above the board), then clear lines and spawn the next piece. -/
def lockPiece (sh : Nat → List Nat) (g : Game) : Game :=
  let (b1, ov) := lockPlace g.board g.cur
  if ov then { g with board := b1, gameOver := true }
  else spawn sh (clearLines { g with board := b1 })

/-- Go `tryMove`: translate the piece, commit when the result is collision
free. -/
def tryMove (g : Game) (dx dy : Int) : Game × Bool :=
  let next : ActivePiece := { g.cur with x := g.cur.x + dx, y := g.cur.y + dy }
  if collides g.board next then (g, false) else ({ g with cur := next }, true)

/-- The kick-offset search loop of Go `tryRotate` over `[0, -1, 1, -2, 2]`. -/
def tryRotateAux (g : Game) (next : ActivePiece) : List Int → Game × Bool
  | [] => (g, false)
  | ox :: rest =>
    let test := { next with x := next.x + ox }
    if collides g.board test then tryRotateAux g next rest
    else ({ g with cur := test }, true)

/-- Go `tryRotate`: candidate rotation `(rot + dir + 4) % 4`, then the
fixed kick-offset search. -/
def tryRotate (g : Game) (dir : Int) : Game × Bool :=
  let next : ActivePiece :=
    { g.cur with rot := (((g.cur.rot : Int) + dir + 4).emod 4).toNat }
  tryRotateAux g next [0, -1, 1, -2, 2]

/-- The drop loop of Go `hardDrop` (`for g.tryMove(0,1) {}`), with explicit
fuel; the Go loop terminates because every real piece collides below the
floor, which the fuel-sufficiency hypotheses of the theorems capture. -/
def dropLoop (g : Game) : Nat → Game
  | 0 => g
  | fuel + 1 =>
    let (g1, moved) := tryMove g 0 1
    if moved then dropLoop g1 fuel else g

/-- Go `hardDrop`: drop to rest, lock, reset the gravity counter. -/
def hardDrop (sh : Nat → List Nat) (g : Game) (fuel : Nat) : Game :=
  let g1 := dropLoop g fuel
  { lockPiece sh g1 with dropFrameCounter := 0 }

/-- Go `ghostPieceY`: walk the piece down while the cell below is free. -/
def ghostPieceY (g : Game) : Nat → Int
  | 0 => g.cur.y
  | fuel + 1 =>
    if collides g.board { g.cur with y := g.cur.y + 1 } then g.cur.y
    else ghostPieceY { g with cur := { g.cur with y := g.cur.y + 1 } } fuel

/-- Go `gravityFrames`: `max(2, 30 - 2*level)` frames per gravity step. -/
def gravityFrames (level : Nat) : Nat :=
  let f : Int := 30 - (level : Int) * 2
  if f < 2 then 2 else f.toNat

/-- The input sample of one `Update` call: the just-pressed / held keys
polled through `inpututil` and `ebiten`, the platform flag
`runtime.GOOS == ios/android`, and the touch buttons already resolved by
the bottom-bar hit test (`justPressIn i` / `pressIn i`). -/
structure Input where
  keySpace : Bool
  keyEnter : Bool
  touchJustAny : Bool
  keyLeft : Bool
  keyA : Bool
  keyRight : Bool
  keyD : Bool
  keyZ : Bool
  keyX : Bool
  keyUp : Bool
  keyW : Bool
  keyDown : Bool
  keyS : Bool
  mobile : Bool
  touchJust0 : Bool
  touchJust1 : Bool
  touchJust2 : Bool
  touchJust3 : Bool
  touchHeld0 : Bool
  touchHeld1 : Bool
deriving DecidableEq

/-- The all-false input sample (no key or touch active). -/
def noInput : Input :=
  ⟨false, false, false, false, false, false, false, false, false, false,
   false, false, false, false, false, false, false, false, false, false⟩

/-- Go `NewGame` (also the body of `Reset`): zero state, draw the first
next kind, spawn.  The fresh time-seeded `rand.Rand` is modelled by
restarting the injected shuffle stream. -/
def initGame (sh : Nat → List Nat) : Game :=
  let g0 : Game :=
    { board := emptyBoard, cur := ⟨0, 0, 0, 0⟩, nextKind := 0, bag := [],
      refills := 0, score := 0, lines := 0, level := 0,
      dropFrameCounter := 0, gameOver := false }
  let (nk, bs) := popBag sh ⟨g0.bag, g0.refills⟩
  spawn sh { g0 with nextKind := nk, bag := bs.bag, refills := bs.refills }

/-- The gravity / soft-drop step at the end of Go `Update`: bump the frame
counter; on a soft drop or an elapsed gravity interval, move down once,
locking on failure, and reset the counter. -/
def gravityStep (sh : Nat → List Nat) (softDrop : Bool) (g : Game) : Game :=
  let g := { g with dropFrameCounter := g.dropFrameCounter + 1 }
  if softDrop then
    let (g1, moved) := tryMove g 0 1
    let g2 := if moved then g1 else lockPiece sh g1
    { g2 with dropFrameCounter := 0 }
  else if gravityFrames g.level ≤ g.dropFrameCounter then
    let (g1, moved) := tryMove g 0 1
    let g2 := if moved then g1 else lockPiece sh g1
    { g2 with dropFrameCounter := 0 }
  else g

/-- One conditional input action of Go `Update`: `if cond { g.action() }`. -/
def applyIf (c : Bool) (f : Game → Game) (g : Game) : Game :=
  if c then f g else g

/-- Go `Update`: in `gameOver`, only a restart-class input does anything
(it runs `Reset`); otherwise keyboard moves, rotations and hard drop, the
mobile touch buttons, and finally gravity / soft drop.  `fuel` bounds the
hard-drop loop as in `dropLoop`. -/
def update (sh : Nat → List Nat) (inp : Input) (fuel : Nat) (g : Game) : Game :=
  if g.gameOver then
    if inp.keySpace || inp.keyEnter || inp.touchJustAny then initGame sh else g
  else
    let g := applyIf (inp.keyLeft || inp.keyA) (fun g => (tryMove g (-1) 0).1) g
    let g := applyIf (inp.keyRight || inp.keyD) (fun g => (tryMove g 1 0).1) g
    let g := applyIf inp.keyZ (fun g => (tryRotate g (-1)).1) g
    let g := applyIf (inp.keyX || inp.keyUp || inp.keyW) (fun g => (tryRotate g 1).1) g
    let g := applyIf inp.keySpace (fun g => hardDrop sh g fuel) g
    let softDrop := inp.keyDown || inp.keyS
    let g := applyIf (inp.mobile && inp.touchJust0) (fun g => (tryMove g (-1) 0).1) g
    let g := applyIf (inp.mobile && inp.touchJust1) (fun g => (tryMove g 1 0).1) g
    let g := applyIf (inp.mobile && inp.touchJust2) (fun g => (tryRotate g 1).1) g
    let g := applyIf (inp.mobile && inp.touchJust3) (fun g => hardDrop sh g fuel) g
    let softDrop := softDrop || (inp.mobile && (inp.touchHeld0 || inp.touchHeld1))
    gravityStep sh softDrop g

/-- A cell position inside the visible board, `[0,W) x [0,H)`. -/
def InBoundsPt (p : Point) : Prop :=
  0 ≤ p.x ∧ p.x < (boardW : Int) ∧ 0 ≤ p.y ∧ p.y < (boardH : Int)

/-- The safety invariant the locking code relies on: the board is well
formed, and outside `gameOver` the active piece is a valid placement. -/
def Inv (g : Game) : Prop :=
  WFBoard g.board ∧ (g.gameOver = false → collides g.board g.cur = false)

/-- A fixed shuffle stream (the identity permutation each refill), used to
instantiate the injected random source in concrete runs. -/
def shId : Nat → List Nat := fun _ => [0, 1, 2, 3, 4, 5, 6]

/-- A board whose bottom row is completely full of locked cells. -/
def bottomFullBoard : Board :=
  List.replicate (boardH - 1) emptyRow ++ [List.replicate boardW 1]

/-- A game about to clear one row while sitting one line short of a level
boundary: 9 lines cleared so far (level 0), bottom row full. -/
def levelEdgeGame : Game :=
  { board := bottomFullBoard, cur := ⟨0, 0, 3, 0⟩, nextKind := 0, bag := [],
    refills := 0, score := 0, lines := 9, level := 0,
    dropFrameCounter := 0, gameOver := false }

/-- A board that is empty except for an overhang: two locked cells at
row 8, columns 1 and 2. -/
def overhangBoard : Board :=
  List.replicate 8 emptyRow ++
    [[0, 1, 1, 0, 0, 0, 0, 0, 0, 0]] ++ List.replicate 11 emptyRow

/-- An O piece falling above the overhang of `overhangBoard`. -/
def overhangGame : Game :=
  { board := overhangBoard, cur := ⟨1, 0, 0, 0⟩, nextKind := 0, bag := [],
    refills := 0, score := 0, lines := 0, level := 0,
    dropFrameCounter := 0, gameOver := false }

/-- A board whose bottom row is full except for the rightmost cell. -/
def almostFullBoard : Board :=
  List.replicate (boardH - 1) emptyRow ++ [[1, 1, 1, 1, 1, 1, 1, 1, 1, 0]]

/-- A finished game (the `gameOver` flag is set). -/
def gameOverGame : Game :=
  { board := emptyBoard, cur := ⟨0, 0, 3, 0⟩, nextKind := 1, bag := [2, 3],
    refills := 1, score := 160, lines := 11, level := 1,
    dropFrameCounter := 5, gameOver := true }

/-- A fresh game driven by the fixed shuffle stream, used to instantiate
reachable-state hypotheses in concrete runs. -/
def freshGame : Game := initGame shId

/-- C5: `isValidPlacement` (the negation of Go `collides`) holds iff every
occupied cell satisfies the x-bounds, lies above the floor, and is either
above the top of the board (`y < 0`) or lands on an empty board cell; a
cell with `y < 0` is exempt from the occupancy check but not from the
x-bounds. -/
theorem collides_false_iff (b : Board) (ap : ActivePiece) :
    collides b ap = false ↔
      ∀ p ∈ pieceCells ap,
        (0 ≤ p.x ∧ p.x < (boardW : Int) ∧ p.y < (boardH : Int)) ∧
          (p.y < 0 ∨ getCell b p.x p.y = 0) := by
  rw [collides, List.any_eq_false]
  constructor
  · intro h p hp
    have hb : ((decide (p.x < 0) || decide ((boardW : Int) ≤ p.x) ||
        decide ((boardH : Int) ≤ p.y)) ||
        (decide (0 ≤ p.y) && decide (getCell b p.x p.y ≠ 0))) = false :=
      Bool.not_eq_true _ |>.mp (h p hp)
    simp only [Bool.or_eq_false_iff, Bool.and_eq_false_iff,
      decide_eq_false_iff_not] at hb
    obtain ⟨⟨⟨h1, h2⟩, h3⟩, h4⟩ := hb
    refine ⟨⟨by omega, by omega, by omega⟩, ?_⟩
    rcases h4 with h4 | h4
    · exact Or.inl (by omega)
    · exact Or.inr (Decidable.not_not.mp h4)
  · intro h p hp
    obtain ⟨⟨h1, h2, h3⟩, h4⟩ := h p hp
    show ¬(_ = true)
    rw [Bool.not_eq_true]
    simp only [Bool.or_eq_false_iff, Bool.and_eq_false_iff,
      decide_eq_false_iff_not]
    refine ⟨⟨⟨by omega, by omega⟩, by omega⟩, ?_⟩
    rcases h4 with h4 | h4
    · exact Or.inl (by omega)
    · exact Or.inr (Decidable.not_not.mpr h4)

/-- The kick-search loop returns the first offset whose shifted candidate
is collision free, or fails leaving the game untouched. -/
theorem tryRotateAux_eq_find (g : Game) (next : ActivePiece) (l : List Int) :
    tryRotateAux g next l =
      match l.find? (fun ox => !collides g.board { next with x := next.x + ox }) with
      | some ox => ({ g with cur := { next with x := next.x + ox } }, true)
      | none => (g, false) := by
  induction l with
  | nil => rfl
  | cons ox rest ih =>
    by_cases h : collides g.board { next with x := next.x + ox }
    · rw [tryRotateAux, List.find?_cons_of_neg _ (by simp [h]), if_pos h, ih]
    · rw [tryRotateAux, List.find?_cons_of_pos _ (by simp [h]), if_neg h]

/-- C4: `tryRotate` keeps the board, computes the candidate rotation
`(rot + dir) mod 4` at the same anchor, probes the horizontal offsets
`0, -1, +1, -2, +2` in exactly that order, commits the first collision-free
candidate and returns true; when all five collide it returns false and the
whole game state is unchanged. -/
theorem tryRotate_first_offset (g : Game) (dir : Int) :
    (tryRotate g dir).1.board = g.board ∧
      (let cand : ActivePiece :=
        { kind := g.cur.kind, rot := (((g.cur.rot : Int) + dir).emod 4).toNat,
          x := g.cur.x, y := g.cur.y }
       match [0, -1, 1, -2, 2].find?
           (fun ox => !collides g.board { cand with x := cand.x + ox }) with
       | some ox => tryRotate g dir = ({ g with cur := { cand with x := cand.x + ox } }, true)
       | none => tryRotate g dir = (g, false)) := by
  have hmod : ((g.cur.rot : Int) + dir + 4).emod 4 = ((g.cur.rot : Int) + dir).emod 4 := by
    show ((g.cur.rot : Int) + dir + 4) % 4 = ((g.cur.rot : Int) + dir) % 4
    have h4 : (g.cur.rot : Int) + dir + 4 = (g.cur.rot : Int) + dir + 1 * 4 := by ring
    rw [h4, Int.add_mul_emod_self]
  have hrw : tryRotate g dir =
      tryRotateAux g
        { kind := g.cur.kind, rot := (((g.cur.rot : Int) + dir).emod 4).toNat,
          x := g.cur.x, y := g.cur.y } [0, -1, 1, -2, 2] := by
    rw [tryRotate, hmod]
  constructor
  · rw [hrw, tryRotateAux_eq_find]
    cases hf : List.find? (fun ox =>
        !collides g.board
          { kind := g.cur.kind, rot := (((g.cur.rot : Int) + dir).emod 4).toNat,
            x := g.cur.x + ox, y := g.cur.y }) [0, -1, 1, -2, 2] <;> simp [hf]
  · rw [hrw, tryRotateAux_eq_find]
    cases hf : List.find? (fun ox =>
        !collides g.board
          { kind := g.cur.kind, rot := (((g.cur.rot : Int) + dir).emod 4).toNat,
            x := g.cur.x + ox, y := g.cur.y }) [0, -1, 1, -2, 2] <;> simp [hf]

/-- C9: on a board with `boardH` rows none of which is full,
`clearFullRows` returns 0 and leaves the grid unchanged, so a second call
with no placement in between also returns 0 and changes nothing. -/
theorem clearRows_no_full_id (b : Board) (hlen : b.length = boardH)
    (hnf : ∀ row ∈ b, rowFull row = false) :
    clearRows b = (b, 0) ∧ clearRows (clearRows b).1 = ((clearRows b).1, 0) := by
  have h1 : b.filter (fun row => !(rowFull row)) = b :=
    List.filter_eq_self.mpr (fun a ha => by simp [hnf a ha])
  have h2 : b.countP (fun row => rowFull row) = 0 :=
    List.countP_eq_zero.mpr (fun a ha => by simp [hnf a ha])
  have hmain : clearRows b = (b, 0) := by
    simp [clearRows, h1, h2, hlen]
  exact ⟨hmain, by rw [hmain]; exact hmain⟩

/-- Witness for C9 at the empty board. -/
theorem clearRows_no_full_id_witness :
    (∀ row ∈ emptyBoard, rowFull row = false) ∧ clearRows emptyBoard = (emptyBoard, 0) :=
  ⟨by decide, (clearRows_no_full_id emptyBoard (by decide) (by decide)).1⟩

/-- Counterexample to C1: with 9 lines already cleared at level 0,
clearing one more row makes the code recompute the level to 1 before the
score bonus, so it adds 40 * 2 = 80 and not 40 * (oldLevel + 1) = 40. -/
theorem clearLines_old_level_cex :
    (clearRows levelEdgeGame.board).2 = 1 ∧
      levelEdgeGame.level = 0 ∧ levelEdgeGame.score = 0 ∧
      (clearLines levelEdgeGame).score = 80 ∧
      (clearLines levelEdgeGame).score ≠
        levelEdgeGame.score + scoreTable.getD 1 0 * (levelEdgeGame.level + 1) := by
  decide

/-- C1 (amended): on a `clearFullRows` count C ≤ 4 the code first sets
`linesCleared += C` and recomputes `level = linesCleared / 10`, and the
score bonus `scoreTable[C] * (level + 1)` uses the recomputed level; a
count of 0 changes no counter. -/
theorem clearLines_scoring (g : Game) (C : Nat)
    (hC : (clearRows g.board).2 = C) (h4 : C ≤ 4) :
    (clearLines g).board = (clearRows g.board).1 ∧
      (clearLines g).lines = g.lines + C ∧
      (clearLines g).level = (if C = 0 then g.level else (g.lines + C) / 10) ∧
      (clearLines g).score =
        (if C = 0 then g.score
         else g.score + scoreTable.getD C 0 * ((g.lines + C) / 10 + 1)) := by
  have hcl : clearLines g = applyClear { g with board := (clearRows g.board).1 } C := by
    rw [← hC]
    rfl
  rw [hcl]
  cases C with
  | zero => simp [applyClear]
  | succ n =>
    simp only [applyClear, Nat.succ_ne_zero, if_false, gt_iff_lt, Nat.succ_pos,
      if_pos, if_true, Nat.add_eq, h4]
    simp [h4]

/-- Witness for C1 (amended) at `levelEdgeGame`: the 9→10 line clear is
scored with the recomputed level 1, adding 40 * 2 = 80. -/
theorem clearLines_scoring_witness :
    ((clearRows levelEdgeGame.board).2 = 1 ∧ (1 : Nat) ≤ 4) ∧
      (clearLines levelEdgeGame).score =
        (if (1 : Nat) = 0 then levelEdgeGame.score
         else levelEdgeGame.score +
           scoreTable.getD 1 0 * ((levelEdgeGame.lines + 1) / 10 + 1)) :=
  ⟨⟨by decide, by decide⟩,
    (clearLines_scoring levelEdgeGame 1 (by decide) (by decide)).2.2.2⟩

/-- `l.getD` after `l.set` at the same in-range index yields the new value. -/
theorem getD_set_same {α : Type} (l : List α) {i : Nat} (hi : i < l.length)
    (a d : α) : (l.set i a).getD i d = a := by
  rw [List.getD_eq_getElem?_getD, List.getElem?_set_self hi]
  rfl

/-- `l.getD` after `l.set` at a different index is unchanged. -/
theorem getD_set_ne {α : Type} (l : List α) {i j : Nat} (h : i ≠ j)
    (a d : α) : (l.set i a).getD j d = l.getD j d := by
  rw [List.getD_eq_getElem?_getD, List.getElem?_set_ne h,
    ← List.getD_eq_getElem?_getD]

/-- An in-range `getD` is a member of the list. -/
theorem getD_mem {α : Type} (l : List α) {i : Nat} (hi : i < l.length)
    (d : α) : l.getD i d ∈ l := by
  rw [List.getD_eq_getElem?_getD, List.getElem?_eq_getElem hi]
  exact List.getElem_mem hi

/-- `setCell` keeps `boardH` rows of `boardW` cells. -/
theorem setCell_WF (b : Board) (x y : Int) (v : Nat) (hWF : WFBoard b) :
    WFBoard (setCell b x y v) := by
  obtain ⟨hlen, hrows⟩ := hWF
  by_cases hj : y.toNat < b.length
  · refine ⟨by simpa [setCell] using hlen, ?_⟩
    intro row hrow
    rcases List.mem_or_eq_of_mem_set hrow with h | h
    · exact hrows row h
    · rw [h, List.length_set]
      exact hrows _ (getD_mem b hj [])
  · rw [setCell, List.set_eq_of_length_le (Nat.le_of_not_lt hj)]
    exact ⟨hlen, hrows⟩

/-- Reading a different cell after `setCell` (both cells at nonnegative
coordinates) gives the old value. -/
theorem getCell_setCell_ne (b : Board) {x y x2 y2 : Int}
    (hy0 : 0 ≤ y) (hy20 : 0 ≤ y2) (hx0 : 0 ≤ x) (hx20 : 0 ≤ x2)
    (hne : x ≠ x2 ∨ y ≠ y2) (v : Nat) :
    getCell (setCell b x y v) x2 y2 = getCell b x2 y2 := by
  rw [getCell, setCell, getCell]
  by_cases hyy : y.toNat = y2.toNat
  · have hyeq : y = y2 := by omega
    have hxx : x.toNat ≠ x2.toNat := by
      rcases hne with h | h
      · omega
      · omega
    subst hyeq
    rw [hyy]
    by_cases hj : y.toNat < b.length
    · rw [← hyy, getD_set_same b hj, hyy]
      rw [← hyy, getD_set_ne _ hxx]
    · have hle : b.length ≤ y.toNat := Nat.le_of_not_lt hj
      rw [List.set_eq_of_length_le hle]
  · rw [getD_set_ne _ hyy]

/-- Reading the written cell after `setCell` at an in-bounds position
gives the new value. -/
theorem getCell_setCell_same (b : Board) (hWF : WFBoard b) {x y : Int}
    (hx0 : 0 ≤ x) (hxW : x < (boardW : Int)) (hy0 : 0 ≤ y)
    (hyH : y < (boardH : Int)) (v : Nat) :
    getCell (setCell b x y v) x y = v := by
  obtain ⟨hlen, hrows⟩ := hWF
  have hyn : y.toNat < b.length := by omega
  have hrlen : (b.getD y.toNat []).length = boardW := hrows _ (getD_mem b hyn [])
  have hxn : x.toNat < (b.getD y.toNat []).length := by omega
  rw [getCell, setCell, getD_set_same b hyn, getD_set_same _ hxn]

/-- The overflow flag of the lock write loop is set iff some cell lies
above the board. -/
theorem placeCells_snd_iff (l : List Point) : ∀ (b : Board) (k : Nat),
    (placeCells b k l).2 = true ↔ ∃ p ∈ l, p.y < 0 := by
  induction l with
  | nil => intro b k; simp [placeCells]
  | cons p ps ih =>
    intro b k
    by_cases hy : p.y < 0
    · simp only [placeCells, if_pos hy]
      exact ⟨fun _ => ⟨p, List.mem_cons_self p ps, hy⟩, fun _ => trivial⟩
    · simp only [placeCells, if_neg hy, ih]
      constructor
      · rintro ⟨q, hq, hqy⟩
        exact ⟨q, List.mem_cons_of_mem p hq, hqy⟩
      · rintro ⟨q, hq, hqy⟩
        rcases List.mem_cons.mp hq with rfl | hq
        · exact absurd hqy hy
        · exact ⟨q, hq, hqy⟩

/-- When the cells come in non-decreasing y order, an overflowing lock
write loop stops on its very first cell and leaves the board unchanged. -/
theorem placeCells_fst_of_overflow (l : List Point) : ∀ (b : Board) (k : Nat),
    l.Pairwise (fun p q => p.y ≤ q.y) → (placeCells b k l).2 = true →
    (placeCells b k l).1 = b := by
  induction l with
  | nil => intro b k _ hov; simp [placeCells] at hov
  | cons p ps ih =>
    intro b k hpw hov
    by_cases hy : p.y < 0
    · simp [placeCells, if_pos hy]
    · exfalso
      rw [placeCells] at hov
      rw [if_neg hy] at hov
      obtain ⟨q, hq, hqy⟩ := (placeCells_snd_iff ps _ k).mp hov
      have := (List.pairwise_cons.mp hpw).1 q hq
      omega

/-- Every shape list (all kinds, all rotations) is ordered by
non-decreasing y; out-of-range indices give the empty shape. -/
theorem shapeOf_pairwise_y (kind rot : Nat) :
    (shapeOf kind rot).Pairwise (fun p q => p.y ≤ q.y) := by
  rcases Nat.lt_or_ge kind 7 with hk | hk
  · rcases Nat.lt_or_ge rot 4 with hr | hr
    · have hall : ∀ k < 7, ∀ r < 4,
          (shapeOf k r).Pairwise (fun p q => p.y ≤ q.y) := by decide
      exact hall kind hk rot hr
    · have hlen : (pieceShapes.getD kind []).length ≤ rot := by
        have h4 : ∀ k < 7, (pieceShapes.getD k []).length = 4 := by decide
        have h4k := h4 kind hk
        omega
      rw [shapeOf, List.getD_eq_getElem?_getD, List.getElem?_eq_none hlen]
      exact List.Pairwise.nil
  · have hlen : pieceShapes.length ≤ kind := by
      have h7 : pieceShapes.length = 7 := by decide
      omega
    have hnil : pieceShapes.getD kind [] = [] := by
      rw [List.getD_eq_getElem?_getD, List.getElem?_eq_none hlen]
      rfl
    rw [shapeOf, hnil]
    cases rot <;> exact List.Pairwise.nil

/-- Every shape list has no duplicate offsets. -/
theorem shapeOf_nodup (kind rot : Nat) : (shapeOf kind rot).Nodup := by
  rcases Nat.lt_or_ge kind 7 with hk | hk
  · rcases Nat.lt_or_ge rot 4 with hr | hr
    · have hall : ∀ k < 7, ∀ r < 4, (shapeOf k r).Nodup := by decide
      exact hall kind hk rot hr
    · have hlen : (pieceShapes.getD kind []).length ≤ rot := by
        have h4 : ∀ k < 7, (pieceShapes.getD k []).length = 4 := by decide
        have h4k := h4 kind hk
        omega
      rw [shapeOf, List.getD_eq_getElem?_getD, List.getElem?_eq_none hlen]
      exact List.nodup_nil
  · have hlen : pieceShapes.length ≤ kind := by
      have h7 : pieceShapes.length = 7 := by decide
      omega
    have hnil : pieceShapes.getD kind [] = [] := by
      rw [List.getD_eq_getElem?_getD, List.getElem?_eq_none hlen]
      rfl
    rw [shapeOf, hnil]
    cases rot <;> exact List.nodup_nil

/-- Every shape list has at most 4 cells. -/
theorem shapeOf_length_le (kind rot : Nat) : (shapeOf kind rot).length ≤ 4 := by
  rcases Nat.lt_or_ge kind 7 with hk | hk
  · rcases Nat.lt_or_ge rot 4 with hr | hr
    · have hall : ∀ k < 7, ∀ r < 4, (shapeOf k r).length ≤ 4 := by decide
      exact hall kind hk rot hr
    · have hlen : (pieceShapes.getD kind []).length ≤ rot := by
        have h4 : ∀ k < 7, (pieceShapes.getD k []).length = 4 := by decide
        have h4k := h4 kind hk
        omega
      rw [shapeOf, List.getD_eq_getElem?_getD, List.getElem?_eq_none hlen]
      exact Nat.zero_le 4
  · have hlen : pieceShapes.length ≤ kind := by
      have h7 : pieceShapes.length = 7 := by decide
      omega
    have hnil : pieceShapes.getD kind [] = [] := by
      rw [List.getD_eq_getElem?_getD, List.getElem?_eq_none hlen]
      rfl
    rw [shapeOf, hnil]
    cases rot <;> exact Nat.zero_le 4

/-- The absolute cells of a piece are ordered by non-decreasing y. -/
theorem pieceCells_pairwise_y (ap : ActivePiece) :
    (pieceCells ap).Pairwise (fun p q => p.y ≤ q.y) := by
  rw [pieceCells]
  refine List.Pairwise.map _ (fun a b h => ?_) (shapeOf_pairwise_y ap.kind ap.rot)
  show ap.y + a.y ≤ ap.y + b.y
  have h2 : a.y ≤ b.y := h
  omega

/-- The absolute cells of a piece are pairwise distinct. -/
theorem pieceCells_nodup (ap : ActivePiece) : (pieceCells ap).Nodup := by
  rw [pieceCells]
  refine List.Nodup.map ?_ (shapeOf_nodup ap.kind ap.rot)
  intro a b hab
  obtain ⟨ax, ay⟩ := a
  obtain ⟨bx, bz⟩ := b
  simp only [Point.mk.injEq] at hab ⊢
  omega

/-- A piece has at most 4 absolute cells. -/
theorem pieceCells_length_le (ap : ActivePiece) : (pieceCells ap).length ≤ 4 := by
  rw [pieceCells, List.length_map]
  exact shapeOf_length_le ap.kind ap.rot

/-- The lock write loop leaves every cell distinct from all written cells
unchanged. -/
theorem placeCells_getCell_other (l : List Point) : ∀ (b : Board) (k : Nat)
    (q : Point), (∀ p ∈ l, 0 ≤ p.x ∧ 0 ≤ p.y) → 0 ≤ q.x → 0 ≤ q.y →
    (∀ p ∈ l, p ≠ q) →
    getCell (placeCells b k l).1 q.x q.y = getCell b q.x q.y := by
  induction l with
  | nil => intro b k q _ _ _ _; rfl
  | cons p ps ih =>
    intro b k q hpos hqx hqy hne
    by_cases hy : p.y < 0
    · have := (hpos p (List.mem_cons_self p ps)).2
      omega
    · rw [placeCells, if_neg hy]
      rw [ih _ k q (fun r hr => hpos r (List.mem_cons_of_mem p hr)) hqx hqy
        (fun r hr => hne r (List.mem_cons_of_mem p hr))]
      apply getCell_setCell_ne b (by omega) hqy (hpos p (List.mem_cons_self p ps)).1 hqx
      have hpq := hne p (List.mem_cons_self p ps)
      by_contra hcon
      push_neg at hcon
      exact hpq (by cases p; cases q; simp only [Point.mk.injEq]; exact ⟨hcon.1, hcon.2⟩)

/-- The lock write loop preserves board well-formedness. -/
theorem placeCells_WF (l : List Point) : ∀ (b : Board) (k : Nat),
    WFBoard b → WFBoard (placeCells b k l).1 := by
  induction l with
  | nil => intro b k hWF; exact hWF
  | cons p ps ih =>
    intro b k hWF
    by_cases hy : p.y < 0
    · rw [placeCells, if_pos hy]; exact hWF
    · rw [placeCells, if_neg hy]
      exact ih _ k (setCell_WF b p.x p.y (k + 1) hWF)

/-- When no cell overflows, the lock write loop stores `k+1` at every one
of its (distinct, in-bounds) cells. -/
theorem placeCells_getCell_written (l : List Point) : ∀ (b : Board) (k : Nat),
    WFBoard b → l.Nodup → (∀ p ∈ l, InBoundsPt p) →
    ∀ q ∈ l, getCell (placeCells b k l).1 q.x q.y = k + 1 := by
  induction l with
  | nil => intro b k _ _ _ q hq; exact absurd hq (List.not_mem_nil q)
  | cons p ps ih =>
    intro b k hWF hnd hin q hq
    have hpin := hin p (List.mem_cons_self p ps)
    have hy : ¬p.y < 0 := by have := hpin.2.2.1; omega
    rw [placeCells, if_neg hy]
    rcases List.mem_cons.mp hq with rfl | hq
    · rw [placeCells_getCell_other ps _ k q
        (fun r hr => ⟨(hin r (List.mem_cons_of_mem q hr)).1,
          (hin r (List.mem_cons_of_mem q hr)).2.2.1⟩)
        hpin.1 hpin.2.2.1
        (fun r hr hrq => (List.nodup_cons.mp hnd).1 (hrq ▸ hr))]
      exact getCell_setCell_same b hWF hpin.1 hpin.2.1 hpin.2.2.1 hpin.2.2.2 (k + 1)
    · exact ih _ k (setCell_WF b p.x p.y (k + 1) hWF) (List.nodup_cons.mp hnd).2
        (fun r hr => hin r (List.mem_cons_of_mem p hr)) q hq

/-- Counterexample to C2: a T piece straddling the top edge (anchor
y = -1) has three cells at y ≥ 0, yet the overflowing lock writes none of
them -- the board stays empty while overflow is signaled. -/
theorem lockPlace_partial_write_cex :
    (lockPlace emptyBoard ⟨2, 0, 3, -1⟩).2 = true ∧
      Point.mk 3 0 ∈ pieceCells ⟨2, 0, 3, -1⟩ ∧
      getCell (lockPlace emptyBoard ⟨2, 0, 3, -1⟩).1 3 0 ≠ 2 + 1 ∧
      (lockPlace emptyBoard ⟨2, 0, 3, -1⟩).1 = emptyBoard := by
  decide

/-- C2 (amended): the lock write signals overflow iff some cell of the
piece has y < 0; on overflow it stops at its first cell (shapes list cells
in non-decreasing y), writing nothing; with no overflow and a valid
placement it writes kind+1 into every occupied cell. -/
theorem lockPlace_spec (b : Board) (ap : ActivePiece) (hWF : WFBoard b) :
    ((lockPlace b ap).2 = true ↔ ∃ p ∈ pieceCells ap, p.y < 0) ∧
      ((lockPlace b ap).2 = true → (lockPlace b ap).1 = b) ∧
      ((lockPlace b ap).2 = false → collides b ap = false →
        ∀ q ∈ pieceCells ap, getCell (lockPlace b ap).1 q.x q.y = ap.kind + 1) := by
  refine ⟨placeCells_snd_iff _ _ _,
    placeCells_fst_of_overflow _ _ _ (pieceCells_pairwise_y ap), ?_⟩
  intro hov hval q hq
  have hbounds := (collides_false_iff b ap).mp hval
  have hnoneg : ∀ p ∈ pieceCells ap, ¬p.y < 0 := by
    intro p hp hpy
    have : (lockPlace b ap).2 = true :=
      (placeCells_snd_iff _ _ _).mpr ⟨p, hp, hpy⟩
    rw [hov] at this
    exact Bool.false_ne_true this
  exact placeCells_getCell_written (pieceCells ap) b ap.kind hWF
    (pieceCells_nodup ap)
    (fun p hp => by
      obtain ⟨⟨h1, h2, h3⟩, _⟩ := hbounds p hp
      have h0 := hnoneg p hp
      exact ⟨h1, h2, by omega, h3⟩)
    q hq

/-- Witness for C2 (amended): a T piece locking at the bottom of the empty
board writes kind+1 = 3 into all four of its cells with no overflow. -/
theorem lockPlace_spec_witness :
    WFBoard emptyBoard ∧
      ((lockPlace emptyBoard ⟨2, 0, 3, 17⟩).2 = false →
        collides emptyBoard ⟨2, 0, 3, 17⟩ = false →
        ∀ q ∈ pieceCells ⟨2, 0, 3, 17⟩,
          getCell (lockPlace emptyBoard ⟨2, 0, 3, 17⟩).1 q.x q.y = 2 + 1) :=
  ⟨⟨by decide, by decide⟩, (lockPlace_spec emptyBoard ⟨2, 0, 3, 17⟩ ⟨by decide, by decide⟩).2.2⟩

/-- Setting one list entry changes the count of a predicate by at most 1. -/
theorem countP_set_le {α : Type} (l : List α) : ∀ (i : Nat) (a : α)
    (p : α → Bool), (l.set i a).countP p ≤ l.countP p + 1 := by
  induction l with
  | nil => intro i a p; simp
  | cons h t ih =>
    intro i a p
    cases i with
    | zero =>
      simp only [List.set_cons_zero, List.countP_cons]
      have := ih 0 a p
      by_cases hp : p a = true
      · by_cases hh : p h = true
        · simp [hp, hh]
        · simp [hp, hh]
      · by_cases hh : p h = true
        · simp [hp, hh]
          omega
        · simp [hp, hh]
    | succ i =>
      simp only [List.set_cons_succ, List.countP_cons]
      have := ih i a p
      omega

/-- The lock write loop raises the full-row count by at most the number of
cells it was given. -/
theorem countP_placeCells_le (l : List Point) : ∀ (b : Board) (k : Nat)
    (p : List Nat → Bool),
    (placeCells b k l).1.countP p ≤ b.countP p + l.length := by
  induction l with
  | nil => intro b k p; simp [placeCells]
  | cons q qs ih =>
    intro b k p
    by_cases hy : q.y < 0
    · rw [placeCells, if_pos hy]
      simp only [List.length_cons]
      omega
    · rw [placeCells, if_neg hy]
      have h1 := ih (setCell b q.x q.y (k + 1)) k p
      have h2 : (setCell b q.x q.y (k + 1)).countP p ≤ b.countP p + 1 := by
        rw [setCell]
        exact countP_set_le b q.y.toNat
          ((b.getD q.y.toNat []).set q.x.toNat (k + 1)) p
      simp only [List.length_cons]
      omega

/-- C6: after locking one piece on a well-formed board with no full row,
`clearFullRows` returns exactly the number of full rows, its result is the
non-full rows in their original relative order below freshly inserted
empty rows, the board again has exactly `boardH` rows, and the count is at
most 4 (one piece has only 4 cells). -/
theorem clearRows_after_lock (b : Board) (ap : ActivePiece)
    (hWF : WFBoard b) (hnf : ∀ row ∈ b, rowFull row = false) :
    (clearRows (lockPlace b ap).1).2 =
        (lockPlace b ap).1.countP (fun r => rowFull r) ∧
      (clearRows (lockPlace b ap).1).1 =
        List.replicate ((clearRows (lockPlace b ap).1).2) emptyRow ++
          (lockPlace b ap).1.filter (fun r => !(rowFull r)) ∧
      (clearRows (lockPlace b ap).1).1.length = boardH ∧
      (clearRows (lockPlace b ap).1).2 ≤ 4 := by
  have hWF2 : WFBoard (lockPlace b ap).1 := placeCells_WF _ b ap.kind hWF
  have hlen2 : (lockPlace b ap).1.length = boardH := hWF2.1
  have hpart := List.length_eq_countP_add_countP (p := fun r => rowFull r)
    (l := (lockPlace b ap).1)
  have hkept : ((lockPlace b ap).1.filter (fun r => !(rowFull r))).length =
      (lockPlace b ap).1.countP (fun r => !(rowFull r)) :=
    (List.countP_eq_length_filter _ _).symm
  have hcnt : (lockPlace b ap).1.countP (fun r => !(rowFull r)) =
      (lockPlace b ap).1.countP (fun r => ¬rowFull r = true) := by
    simp
  have hzero : b.countP (fun r => rowFull r) = 0 :=
    List.countP_eq_zero.mpr (fun a ha => by simp [hnf a ha])
  have hbound : (lockPlace b ap).1.countP (fun r => rowFull r) ≤ 4 := by
    have h1 := countP_placeCells_le (pieceCells ap) b ap.kind (fun r => rowFull r)
    have h2 := pieceCells_length_le ap
    rw [lockPlace]
    omega
  refine ⟨rfl, ?_, ?_, hbound⟩
  · show List.replicate
        (boardH - ((lockPlace b ap).1.filter (fun r => !(rowFull r))).length)
        emptyRow ++ (lockPlace b ap).1.filter (fun r => !(rowFull r)) = _
    have : boardH - ((lockPlace b ap).1.filter (fun r => !(rowFull r))).length =
        (lockPlace b ap).1.countP (fun r => rowFull r) := by
      omega
    rw [this]
    rfl
  · show (List.replicate
        (boardH - ((lockPlace b ap).1.filter (fun r => !(rowFull r))).length)
        emptyRow ++ (lockPlace b ap).1.filter (fun r => !(rowFull r))).length = _
    rw [List.length_append, List.length_replicate]
    omega

/-- Witness for C6: an I piece dropped in the right column completes the
almost-full bottom row and exactly one row is cleared. -/
theorem clearRows_after_lock_witness :
    (∀ row ∈ almostFullBoard, rowFull row = false) ∧
      (clearRows (lockPlace almostFullBoard ⟨0, 1, 7, 16⟩).1).2 ≤ 4 ∧
      (clearRows (lockPlace almostFullBoard ⟨0, 1, 7, 16⟩).1).2 = 1 :=
  ⟨by decide,
    (clearRows_after_lock almostFullBoard ⟨0, 1, 7, 16⟩
      ⟨by decide, by decide⟩ (by decide)).2.2.2,
    by decide⟩

/-- One draw step of the kind stream. -/
theorem drawList_succ (sh : Nat → List Nat) (s : BagState) (n : Nat) :
    drawList sh s (n + 1) =
      ((popBag sh s).1 :: (drawList sh (popBag sh s).2 n).1,
        (drawList sh (popBag sh s).2 n).2) := rfl

/-- Drawing 0 kinds changes nothing. -/
theorem drawList_zero (sh : Nat → List Nat) (s : BagState) :
    drawList sh s 0 = ([], s) := rfl

/-- Splitting a draw run into two consecutive runs. -/
theorem drawList_add (sh : Nat → List Nat) (m : Nat) : ∀ (s : BagState) (n : Nat),
    drawList sh s (m + n) =
      ((drawList sh s m).1 ++ (drawList sh (drawList sh s m).2 n).1,
        (drawList sh (drawList sh s m).2 n).2) := by
  induction m with
  | zero =>
    intro s n
    rw [Nat.zero_add, drawList_zero]
    simp
  | succ m ih =>
    intro s n
    have hadd : m + 1 + n = (m + n) + 1 := by omega
    rw [hadd, drawList_succ, drawList_succ, ih (popBag sh s).2 n]
    simp

/-- A draw run of `n` always yields `n` kinds. -/
theorem drawList_length (sh : Nat → List Nat) : ∀ (n : Nat) (s : BagState),
    (drawList sh s n).1.length = n := by
  intro n
  induction n with
  | zero => intro s; rfl
  | succ n ih =>
    intro s
    rw [drawList_succ]
    simp [ih]

/-- Drawing exactly the remaining bag pops it element by element. -/
theorem drawList_bag (sh : Nat → List Nat) (l : List Nat) : ∀ (r : Nat),
    drawList sh ⟨l, r⟩ l.length = (l, ⟨[], r⟩) := by
  induction l with
  | nil => intro r; rfl
  | cons a t ih =>
    intro r
    rw [List.length_cons, drawList_succ]
    have hpop : popBag sh ⟨a :: t, r⟩ = (a, ⟨t, r⟩) := by
      rw [popBag]
      rfl
    rw [hpop, ih r]

/-- From an empty bag, one whole group of draws is exactly the next
injected shuffle, ending again on an empty bag. -/
theorem drawList_refill (sh : Nat → List Nat) (r : Nat)
    (h7 : (sh r).length = 7) :
    drawList sh ⟨[], r⟩ 7 = (sh r, ⟨[], r + 1⟩) := by
  cases hsh : sh r with
  | nil => rw [hsh] at h7; simp at h7
  | cons a t =>
    have hlen : t.length + 1 = 7 := by
      rw [hsh] at h7
      simpa using h7
    rw [← hlen, drawList_succ]
    have hpop : popBag sh ⟨[], r⟩ = (a, ⟨t, r + 1⟩) := by
      rw [popBag]
      simp [hsh]
    rw [hpop, drawList_bag sh t (r + 1)]

/-- After any whole number of groups from an empty bag, the bag is empty
again and the refill counter advanced by the number of groups. -/
theorem drawList_state (sh : Nat → List Nat) (h7 : ∀ n, (sh n).length = 7) :
    ∀ (k r : Nat), (drawList sh ⟨[], r⟩ (7 * k)).2 = ⟨[], r + k⟩ := by
  intro k
  induction k with
  | zero => intro r; rfl
  | succ k ih =>
    intro r
    have hmul : 7 * (k + 1) = 7 + 7 * k := by omega
    rw [hmul, drawList_add sh 7 ⟨[], r⟩ (7 * k)]
    have hr : drawList sh ⟨[], r⟩ 7 = (sh r, ⟨[], r + 1⟩) :=
      drawList_refill sh r (h7 r)
    show (drawList sh (drawList sh ⟨[], r⟩ 7).2 (7 * k)).2 = _
    rw [hr]
    show (drawList sh ⟨[], r + 1⟩ (7 * k)).2 = _
    rw [ih (r + 1)]
    have : r + 1 + k = r + (k + 1) := by omega
    rw [this]

/-- C7: with any injected random source producing permutations of the 7
kinds (`rng.Shuffle` on a refilled bag), the draws `7k .. 7k+6` -- the
k-th group aligned to a bag boundary, starting from the empty initial
bag -- are a permutation of all 7 kinds, so each kind appears exactly
once in every such group. -/
theorem bag_fairness (sh : Nat → List Nat)
    (hsh : ∀ n, (sh n).Perm (List.range 7)) (k : Nat) :
    ((drawList sh ⟨[], 0⟩ (7 * k + 7)).1.drop (7 * k)).Perm (List.range 7) ∧
      ∀ kind < 7, ((drawList sh ⟨[], 0⟩ (7 * k + 7)).1.drop (7 * k)).count kind = 1 := by
  have h7 : ∀ n, (sh n).length = 7 := fun n => by
    have := (hsh n).length_eq
    simpa using this
  have hgrp : (drawList sh ⟨[], 0⟩ (7 * k + 7)).1.drop (7 * k) = sh k := by
    rw [drawList_add sh (7 * k) ⟨[], 0⟩ 7]
    have hst : (drawList sh ⟨[], 0⟩ (7 * k)).2 = ⟨[], 0 + k⟩ :=
      drawList_state sh h7 k 0
    have hr : drawList sh ⟨[], 0 + k⟩ 7 = (sh (0 + k), ⟨[], 0 + k + 1⟩) :=
      drawList_refill sh (0 + k) (h7 (0 + k))
    show ((drawList sh ⟨[], 0⟩ (7 * k)).1 ++
        (drawList sh (drawList sh ⟨[], 0⟩ (7 * k)).2 7).1).drop (7 * k) = sh k
    rw [hst, hr]
    show ((drawList sh ⟨[], 0⟩ (7 * k)).1 ++ sh (0 + k)).drop (7 * k) = sh k
    rw [List.drop_left' (drawList_length sh (7 * k) ⟨[], 0⟩)]
    rw [Nat.zero_add]
  rw [hgrp]
  refine ⟨hsh k, ?_⟩
  intro kind hkind
  rw [(hsh k).count_eq kind]
  have hcnt : ∀ j < 7, (List.range 7).count j = 1 := by decide
  exact hcnt kind hkind

/-- Witness for C7 with the identity shuffle stream: the second group of
7 draws is again a permutation of the 7 kinds. -/
theorem bag_fairness_witness :
    (shId 0).Perm (List.range 7) ∧
      ((drawList shId ⟨[], 0⟩ (7 * 1 + 7)).1.drop (7 * 1)).Perm (List.range 7) :=
  ⟨by decide,
    (bag_fairness shId
      (fun n => by
        show ([0, 1, 2, 3, 4, 5, 6] : List Nat).Perm (List.range 7)
        decide) 1).1⟩

/-- `tryMove(0,1)` is the one-row downward probe (`x + 0` simplified). -/
theorem tryMove_down (g : Game) :
    tryMove g 0 1 =
      (if collides g.board { g.cur with y := g.cur.y + 1 } then (g, false)
       else ({ g with cur := { g.cur with y := g.cur.y + 1 } }, true)) := by
  have hnext : ({ g.cur with x := g.cur.x + 0, y := g.cur.y + 1 } : ActivePiece) =
      { g.cur with y := g.cur.y + 1 } := by
    cases g.cur
    simp
  simp only [tryMove, hnext]

/-- The hard-drop loop walks the piece exactly to `ghostPieceY`, every
intermediate placement being collision free. -/
theorem dropLoop_ghost (fuel : Nat) : ∀ (g : Game),
    collides g.board g.cur = false →
    dropLoop g fuel = { g with cur := { g.cur with y := ghostPieceY g fuel } } ∧
      g.cur.y ≤ ghostPieceY g fuel ∧
      (∀ z : Int, g.cur.y ≤ z → z ≤ ghostPieceY g fuel →
        collides g.board { g.cur with y := z } = false) := by
  induction fuel with
  | zero =>
    intro g hv
    refine ⟨rfl, le_refl _, ?_⟩
    intro z h1 h2
    have hz : z = g.cur.y := le_antisymm (by exact h2) h1
    rw [hz]
    exact hv
  | succ fuel ih =>
    intro g hv
    by_cases hc : collides g.board { g.cur with y := g.cur.y + 1 } = true
    · have hg : ghostPieceY g (fuel + 1) = g.cur.y := by
        rw [ghostPieceY, if_pos hc]
      have htm : tryMove g 0 1 = (g, false) := by
        rw [tryMove_down, if_pos hc]
      have hdl : dropLoop g (fuel + 1) = g := by
        show (if (tryMove g 0 1).2 = true then dropLoop (tryMove g 0 1).1 fuel else g) = g
        rw [htm]
        simp
      refine ⟨?_, by rw [hg], ?_⟩
      · rw [hdl, hg]
      · intro z h1 h2
        rw [hg] at h2
        have hz : z = g.cur.y := le_antisymm h2 h1
        rw [hz]
        exact hv
    · have hcf : collides g.board { g.cur with y := g.cur.y + 1 } = false :=
        Bool.not_eq_true _ |>.mp hc
      have hg : ghostPieceY g (fuel + 1) =
          ghostPieceY { g with cur := { g.cur with y := g.cur.y + 1 } } fuel := by
        rw [ghostPieceY, if_neg hc]
      have htm : tryMove g 0 1 =
          ({ g with cur := { g.cur with y := g.cur.y + 1 } }, true) := by
        rw [tryMove_down, if_neg hc]
      have hdl : dropLoop g (fuel + 1) =
          dropLoop { g with cur := { g.cur with y := g.cur.y + 1 } } fuel := by
        show (if (tryMove g 0 1).2 = true then dropLoop (tryMove g 0 1).1 fuel else g) = _
        rw [htm]
        simp
      obtain ⟨ih1, ih2, ih3⟩ :=
        ih { g with cur := { g.cur with y := g.cur.y + 1 } } hcf
      rw [hg, hdl]
      refine ⟨ih1, ?_, ?_⟩
      · have : (g.cur.y : Int) + 1 ≤
            ghostPieceY { g with cur := { g.cur with y := g.cur.y + 1 } } fuel := ih2
        omega
      · intro z h1 h2
        by_cases hz : z = g.cur.y
        · rw [hz]
          exact hv
        · have h1b : g.cur.y + 1 ≤ z := by omega
          exact ih3 z h1b h2

/-- Counterexample to C3: with an overhang (locked cells at row 8,
columns 1-2) an O piece falling at x = 0 rests at y = 5 and `hardDrop`
locks it there (writing into row 6), even though y = 17, under the
overhang, is also a valid placement -- so the locked row is not the
maximal valid y. -/
theorem hardDrop_not_max_valid_cex :
    collides overhangGame.board overhangGame.cur = false ∧
      (dropLoop overhangGame 25).cur.y = 5 ∧
      ghostPieceY overhangGame 25 = 5 ∧
      collides overhangGame.board { overhangGame.cur with y := 17 } = false ∧
      ¬((17 : Int) ≤ 5) ∧
      getCell (hardDrop shId overhangGame 25).board 1 6 = 1 + 1 := by
  decide

/-- C3 (amended): given enough fuel (the loop has reached a colliding
successor), `hardDrop` locks the piece exactly at the `ghostPieceY`
projection: the least y at or below the current anchor whose successor
row collides, with every position on the way down valid.  This is the
maximal y reachable by unit downward moves, which on boards with
overhangs can be smaller than the maximal valid y. -/
theorem hardDrop_ghost (sh : Nat → List Nat) (g : Game) (fuel : Nat)
    (hvalid : collides g.board g.cur = false)
    (hstop : collides g.board { g.cur with y := ghostPieceY g fuel + 1 } = true) :
    dropLoop g fuel = { g with cur := { g.cur with y := ghostPieceY g fuel } } ∧
      hardDrop sh g fuel =
        { lockPiece sh { g with cur := { g.cur with y := ghostPieceY g fuel } } with
            dropFrameCounter := 0 } ∧
      g.cur.y ≤ ghostPieceY g fuel ∧
      (∀ z : Int, g.cur.y ≤ z → z ≤ ghostPieceY g fuel →
        collides g.board { g.cur with y := z } = false) ∧
      (∀ z : Int, g.cur.y ≤ z →
        collides g.board { g.cur with y := z + 1 } = true →
        ghostPieceY g fuel ≤ z) ∧
      collides g.board { g.cur with y := ghostPieceY g fuel + 1 } = true := by
  obtain ⟨h1, h2, h3⟩ := dropLoop_ghost fuel g hvalid
  refine ⟨h1, ?_, h2, h3, ?_, hstop⟩
  · rw [hardDrop, h1]
  · intro z hz hcz
    by_contra hlt
    push_neg at hlt
    have hzz : g.cur.y ≤ z + 1 := by omega
    have hzz2 : z + 1 ≤ ghostPieceY g fuel := by omega
    have := h3 (z + 1) hzz hzz2
    rw [this] at hcz
    exact Bool.false_ne_true hcz

/-- Witness for C3 (amended) on the overhang board with fuel 25. -/
theorem hardDrop_ghost_witness :
    (collides overhangGame.board overhangGame.cur = false ∧
      collides overhangGame.board
        { overhangGame.cur with y := ghostPieceY overhangGame 25 + 1 } = true) ∧
      dropLoop overhangGame 25 =
        { overhangGame with
            cur := { overhangGame.cur with y := ghostPieceY overhangGame 25 } } :=
  ⟨⟨by decide, by decide⟩,
    (hardDrop_ghost shId overhangGame 25 (by decide) (by decide)).1⟩

/-- C8: once the `gameOver` flag is set, an `Update` tick either leaves the
entire game state (board, piece, counters, flag) unchanged, or -- exactly
when a restart-class input (Space, Enter or a touch) arrives -- performs
the full reset; no other mutation is possible until that reset. -/
theorem update_gameOver_frozen (sh : Nat → List Nat) (inp : Input) (fuel : Nat)
    (g : Game) (hGO : g.gameOver = true) :
    update sh inp fuel g =
        (if inp.keySpace || inp.keyEnter || inp.touchJustAny then initGame sh
         else g) ∧
      (update sh inp fuel g = g ∨ update sh inp fuel g = initGame sh) := by
  have h1 : update sh inp fuel g =
      (if inp.keySpace || inp.keyEnter || inp.touchJustAny then initGame sh
       else g) := by
    rw [update, if_pos hGO]
  refine ⟨h1, ?_⟩
  rw [h1]
  by_cases hr : (inp.keySpace || inp.keyEnter || inp.touchJustAny) = true
  · rw [if_pos hr]
    exact Or.inr rfl
  · rw [if_neg hr]
    exact Or.inl rfl

/-- Witness for C8: a finished game with no input pressed stays frozen. -/
theorem update_gameOver_frozen_witness :
    gameOverGame.gameOver = true ∧
      update shId noInput 0 gameOverGame = gameOverGame := by
  refine ⟨rfl, ?_⟩
  have h := (update_gameOver_frozen shId noInput 0 gameOverGame rfl).1
  simpa [noInput] using h

/-- `clearFullRows` keeps `boardH` rows of `boardW` cells. -/
theorem clearRows_WF (b : Board) (hWF : WFBoard b) : WFBoard (clearRows b).1 := by
  obtain ⟨hlen, hrows⟩ := hWF
  have hfle : (b.filter (fun row => !(rowFull row))).length ≤ b.length :=
    List.length_filter_le _ b
  constructor
  · show (List.replicate (boardH - (b.filter (fun row => !(rowFull row))).length)
        emptyRow ++ b.filter (fun row => !(rowFull row))).length = boardH
    rw [List.length_append, List.length_replicate]
    omega
  · intro row hrow
    rcases List.mem_append.mp hrow with h | h
    · rw [List.eq_of_mem_replicate h]
      exact List.length_replicate boardW 0
    · exact hrows row (List.mem_of_mem_filter h)

/-- The counter update of `clearLines` never touches the board. -/
theorem applyClear_board (g : Game) (c : Nat) :
    (applyClear g c).board = g.board := by
  rw [applyClear]
  split
  · rfl
  · rfl

/-- `clearLines` replaces the board by the compacted rows. -/
theorem clearLines_board_eq (g : Game) :
    (clearLines g).board = (clearRows g.board).1 := by
  show (applyClear { g with board := (clearRows g.board).1 }
      (clearRows g.board).2).board = _
  rw [applyClear_board]

/-- `spawn` establishes the safety invariant on any well-formed board:
either the fresh piece is a valid placement or `gameOver` is set. -/
theorem spawn_inv (sh : Nat → List Nat) (g : Game) (hWF : WFBoard g.board) :
    Inv (spawn sh g) := by
  simp only [spawn]
  split
  · exact ⟨hWF, fun h => by simp at h⟩
  next hc => exact ⟨hWF, fun _ => Bool.not_eq_true _ |>.mp hc⟩

/-- `tryMove` preserves the safety invariant. -/
theorem tryMove_inv (g : Game) (dx dy : Int) (hInv : Inv g) :
    Inv (tryMove g dx dy).1 := by
  simp only [tryMove]
  split
  · exact hInv
  next hc => exact ⟨hInv.1, fun _ => Bool.not_eq_true _ |>.mp hc⟩

/-- The kick-search loop preserves the safety invariant. -/
theorem tryRotateAux_inv (l : List Int) : ∀ (g : Game) (next : ActivePiece),
    Inv g → Inv (tryRotateAux g next l).1 := by
  induction l with
  | nil => intro g next hInv; exact hInv
  | cons ox rest ih =>
    intro g next hInv
    simp only [tryRotateAux]
    split
    · exact ih g next hInv
    next hc => exact ⟨hInv.1, fun _ => Bool.not_eq_true _ |>.mp hc⟩

/-- `tryRotate` preserves the safety invariant. -/
theorem tryRotate_inv (g : Game) (dir : Int) (hInv : Inv g) :
    Inv (tryRotate g dir).1 := by
  rw [tryRotate]
  exact tryRotateAux_inv _ g _ hInv

/-- `lockPiece` reestablishes the safety invariant from any well-formed
board: on overflow it sets `gameOver`, otherwise the subsequent `spawn`
checks the fresh piece. -/
theorem lockPiece_inv (sh : Nat → List Nat) (g : Game) (hWF : WFBoard g.board) :
    Inv (lockPiece sh g) := by
  simp only [lockPiece]
  split
  · refine ⟨?_, fun h => by simp at h⟩
    exact placeCells_WF _ g.board g.cur.kind hWF
  · apply spawn_inv
    show WFBoard (clearLines { g with board := (lockPlace g.board g.cur).1 }).board
    rw [clearLines_board_eq]
    exact clearRows_WF _ (placeCells_WF _ g.board g.cur.kind hWF)

/-- The hard-drop loop never changes the board. -/
theorem dropLoop_board (fuel : Nat) : ∀ (g : Game),
    (dropLoop g fuel).board = g.board := by
  induction fuel with
  | zero => intro g; rfl
  | succ fuel ih =>
    intro g
    show (if (tryMove g 0 1).2 = true then dropLoop (tryMove g 0 1).1 fuel
        else g).board = g.board
    rw [tryMove_down]
    split
    · split
      next h => simp at h
      next h => rfl
    · split
      next h => rw [ih]
      next h => rfl

/-- `hardDrop` reestablishes the safety invariant. -/
theorem hardDrop_inv (sh : Nat → List Nat) (g : Game) (fuel : Nat)
    (hWF : WFBoard g.board) : Inv (hardDrop sh g fuel) := by
  rw [hardDrop]
  show Inv { lockPiece sh (dropLoop g fuel) with dropFrameCounter := 0 }
  have hWF2 : WFBoard (dropLoop g fuel).board := by
    rw [dropLoop_board]
    exact hWF
  exact lockPiece_inv sh (dropLoop g fuel) hWF2

set_option maxHeartbeats 1000000 in
/-- The gravity / soft-drop step preserves the safety invariant. -/
theorem gravityStep_inv (sh : Nat → List Nat) (sd : Bool) (g : Game)
    (hInv : Inv g) : Inv (gravityStep sh sd g) := by
  have hg1 : Inv { g with dropFrameCounter := g.dropFrameCounter + 1 } := hInv
  simp only [gravityStep]
  split
  · split
    · exact tryMove_inv _ 0 1 hg1
    · exact lockPiece_inv sh _ (tryMove_inv _ 0 1 hg1).1
  · split
    · split
      · exact tryMove_inv _ 0 1 hg1
      · exact lockPiece_inv sh _ (tryMove_inv _ 0 1 hg1).1
    · exact hInv

/-- A conditional input action preserves the safety invariant when the
action does. -/
theorem applyIf_inv (c : Bool) (f : Game → Game) (g : Game)
    (hf : ∀ g2, Inv g2 → Inv (f g2)) (hg : Inv g) : Inv (applyIf c f g) := by
  rw [applyIf]
  split
  · exact hf g hg
  · exact hg

/-- A fresh game satisfies the safety invariant. -/
theorem initGame_inv (sh : Nat → List Nat) : Inv (initGame sh) := by
  simp only [initGame]
  apply spawn_inv
  show WFBoard emptyBoard
  exact ⟨by decide, by decide⟩

/-- One whole `Update` tick preserves the safety invariant. -/
theorem update_inv (sh : Nat → List Nat) (inp : Input) (fuel : Nat) (g : Game)
    (hInv : Inv g) : Inv (update sh inp fuel g) := by
  simp only [update]
  split
  · split
    · exact initGame_inv sh
    · exact hInv
  · refine gravityStep_inv sh _ _ ?_
    refine applyIf_inv _ _ _ (fun g2 h => hardDrop_inv sh g2 fuel h.1) ?_
    refine applyIf_inv _ _ _ (fun g2 h => tryRotate_inv g2 1 h) ?_
    refine applyIf_inv _ _ _ (fun g2 h => tryMove_inv g2 1 0 h) ?_
    refine applyIf_inv _ _ _ (fun g2 h => tryMove_inv g2 (-1) 0 h) ?_
    refine applyIf_inv _ _ _ (fun g2 h => hardDrop_inv sh g2 fuel h.1) ?_
    refine applyIf_inv _ _ _ (fun g2 h => tryRotate_inv g2 1 h) ?_
    refine applyIf_inv _ _ _ (fun g2 h => tryRotate_inv g2 (-1) h) ?_
    refine applyIf_inv _ _ _ (fun g2 h => tryMove_inv g2 1 0 h) ?_
    refine applyIf_inv _ _ _ (fun g2 h => tryMove_inv g2 (-1) 0 h) ?_
    exact hInv

/-- C10: the safety invariant (well-formed board; outside `gameOver` the
active piece is a valid placement) holds in the fresh game and is
preserved by every `Update` tick; under it, every cell the lock loop
writes (those with y ≥ 0) lies inside `[0,W) x [0,H)`, and the lock write
keeps the board well formed -- no board write ever goes out of bounds. -/
theorem lock_writes_in_bounds (sh : Nat → List Nat) (inp : Input) (fuel : Nat)
    (g : Game) (hInv : Inv g) :
    Inv (initGame sh) ∧
      Inv (update sh inp fuel g) ∧
      (g.gameOver = false →
        ∀ p ∈ pieceCells g.cur, 0 ≤ p.y → InBoundsPt p) ∧
      WFBoard (lockPlace g.board g.cur).1 := by
  refine ⟨initGame_inv sh, update_inv sh inp fuel g hInv, ?_,
    placeCells_WF _ g.board g.cur.kind hInv.1⟩
  intro hgo p hp hpy
  have hval := hInv.2 hgo
  obtain ⟨⟨h1, h2, h3⟩, _⟩ := (collides_false_iff _ _).mp hval p hp
  exact ⟨h1, h2, hpy, h3⟩

/-- Witness for C10 at the fresh game driven by the fixed stream. -/
theorem lock_writes_in_bounds_witness :
    Inv freshGame ∧ Inv (update shId noInput 0 freshGame) :=
  ⟨⟨⟨by decide, by decide⟩, fun _ => by decide⟩,
    (lock_writes_in_bounds shId noInput 0 freshGame
      ⟨⟨by decide, by decide⟩, fun _ => by decide⟩).2.1⟩

end Tower

